import Mathlib

/-!
Shallow embedding of `src/sem6/compiler design/lexical_analyzer.py`.

The Python module tokenizes a C-like source string with one combined regular
expression built from `LexicalAnalyzer.token_specs` (an ordered alternation of
named groups) and `re.finditer`.  The embedding models:

* `TokenType` — the Python `TokenType` enum;
* `Token` — the Python `Token` dataclass (lexemes are `List Char`);
* `SpecName` / `ruleOf` / `tokenSpecs` — the entries of `token_specs`: each
  regex alternative becomes an executable matcher on `List Char` returning the
  length it matches at the head of the input, `none` when it does not match.
  Alternation in the Python `re` module is first-match-wins over the listed
  order, and `finditer` yields non-overlapping matches left to right, silently
  skipping positions where no alternative matches; `matchAt` and `scanAux`
  reproduce exactly that.  Character classes (`\d`, `[a-zA-Z_]`, `[ \t]`) are
  modelled over the ASCII ranges the patterns name.
* `runMatches` — the body of the `for match in ...` loop of
  `LexicalAnalyzer.analyze`, threading the `line`/`column` counters;
* `LexicalAnalyzer` / `LexicalAnalyzer.analyze` — the mutable instance state
  (`self.line`, `self.column`, `self.tokens`) and the method itself;
* `tokenize` — one run of `analyze` on a freshly constructed instance.

`scanAux` is given the input length as structural fuel; every rule of the
catalog matches at least one character (`matchAt_pos`), so the fuel is never
exhausted and the function computes the full `finditer` sequence.
-/

inductive TokenType where
  | KEYWORD
  | IDENTIFIER
  | INTEGER
  | FLOAT
  | STRING
  | PLUS
  | MINUS
  | MULTIPLY
  | DIVIDE
  | ASSIGN
  | EQUAL
  | NOT_EQUAL
  | LESS_THAN
  | GREATER_THAN
  | LESS_EQUAL
  | GREATER_EQUAL
  | LPAREN
  | RPAREN
  | LBRACE
  | RBRACE
  | SEMICOLON
  | COMMA
  | COMMENT
  | WHITESPACE
  | EOF
  | UNKNOWN
  deriving DecidableEq, Repr

structure Token where
  type : TokenType
  value : List Char
  line : Nat
  column : Nat
  deriving DecidableEq, Repr

/-- The names of the entries of `LexicalAnalyzer.token_specs`, in source order. -/
inductive SpecName where
  | COMMENT
  | FLOAT
  | INTEGER
  | STRING
  | IDENTIFIER
  | GREATER_EQUAL
  | LESS_EQUAL
  | EQUAL
  | NOT_EQUAL
  | ASSIGN
  | PLUS
  | MINUS
  | MULTIPLY
  | DIVIDE
  | LESS_THAN
  | GREATER_THAN
  | LPAREN
  | RPAREN
  | LBRACE
  | RBRACE
  | SEMICOLON
  | COMMA
  | WHITESPACE
  | NEWLINE
  deriving DecidableEq, Repr

/-- `\d` on the ASCII digits. -/
def isDigitC (c : Char) : Bool := 48 ≤ c.toNat && c.toNat ≤ 57

/-- `[a-zA-Z]`. -/
def isLetterC (c : Char) : Bool :=
  (65 ≤ c.toNat && c.toNat ≤ 90) || (97 ≤ c.toNat && c.toNat ≤ 122)

/-- `[a-zA-Z_]`, the first character of the IDENTIFIER pattern. -/
def isIdentStart (c : Char) : Bool := isLetterC c || c == '_'

/-- `[a-zA-Z0-9_]`, the continuation characters of the IDENTIFIER pattern. -/
def isIdentCont (c : Char) : Bool := isIdentStart c || isDigitC c

/-- Distance to the first occurrence of `*/` (number of characters strictly
before it), as consumed by the non-greedy `[\s\S]*?\*/`; `none` when the input
holds no `*/`. -/
def findClose : List Char → Option Nat
  | '*' :: '/' :: _ => some 0
  | _ :: rest => (findClose rest).map (· + 1)
  | [] => none

/-- The COMMENT alternative `//.*|/\*[\s\S]*?\*/`.  `.` excludes the newline,
so a line comment runs to the character before the next `'\n'`; a block
comment needs a closing `*/` and takes the earliest one. -/
def matchComment : List Char → Option Nat
  | '/' :: '/' :: rest => some (2 + (rest.takeWhile (fun c => !(c == '\n'))).length)
  | '/' :: '*' :: rest => (findClose rest).map (· + 4)
  | _ => none

/-- The FLOAT alternative `\d+\.\d+`. -/
def matchFloat (l : List Char) : Option Nat :=
  let a := (l.takeWhile isDigitC).length
  if a = 0 then none
  else
    match l.drop a with
    | '.' :: rest2 =>
      let b := (rest2.takeWhile isDigitC).length
      if b = 0 then none else some (a + 1 + b)
    | _ => none

/-- The INTEGER alternative `\d+`. -/
def matchInteger (l : List Char) : Option Nat :=
  let a := (l.takeWhile isDigitC).length
  if a = 0 then none else some a

/-- The STRING alternative `"[^"]*"`: an opening quote, every character up to
the next quote, and that closing quote — which must exist. -/
def matchStringLit : List Char → Option Nat
  | '"' :: rest =>
    let k := (rest.takeWhile (fun c => !(c == '"'))).length
    if k < rest.length then some (k + 2) else none
  | _ => none

/-- The IDENTIFIER alternative `[a-zA-Z_][a-zA-Z0-9_]*`. -/
def matchIdent : List Char → Option Nat
  | c :: rest => if isIdentStart c then some (1 + (rest.takeWhile isIdentCont).length) else none
  | [] => none

/-- Whether `pat` is an initial segment of `l`. -/
def hasPrefixL : List Char → List Char → Bool
  | [], _ => true
  | _ :: _, [] => false
  | p :: ps, c :: cs => p == c && hasPrefixL ps cs

/-- A fixed operator / delimiter alternative: the literal characters of the
pattern. -/
def matchExact (pat l : List Char) : Option Nat :=
  if hasPrefixL pat l then some pat.length else none

/-- The WHITESPACE alternative `[ \t]+`. -/
def matchWhitespace (l : List Char) : Option Nat :=
  let k := (l.takeWhile (fun c => c == ' ' || c == '\t')).length
  if k = 0 then none else some k

/-- The recognition rule of each entry of `token_specs`. -/
def ruleOf : SpecName → List Char → Option Nat
  | .COMMENT, l => matchComment l
  | .FLOAT, l => matchFloat l
  | .INTEGER, l => matchInteger l
  | .STRING, l => matchStringLit l
  | .IDENTIFIER, l => matchIdent l
  | .GREATER_EQUAL, l => matchExact ['>', '='] l
  | .LESS_EQUAL, l => matchExact ['<', '='] l
  | .EQUAL, l => matchExact ['=', '='] l
  | .NOT_EQUAL, l => matchExact ['!', '='] l
  | .ASSIGN, l => matchExact ['='] l
  | .PLUS, l => matchExact ['+'] l
  | .MINUS, l => matchExact ['-'] l
  | .MULTIPLY, l => matchExact ['*'] l
  | .DIVIDE, l => matchExact ['/'] l
  | .LESS_THAN, l => matchExact ['<'] l
  | .GREATER_THAN, l => matchExact ['>'] l
  | .LPAREN, l => matchExact ['('] l
  | .RPAREN, l => matchExact [')'] l
  | .LBRACE, l => matchExact ['{'] l
  | .RBRACE, l => matchExact ['}'] l
  | .SEMICOLON, l => matchExact [';'] l
  | .COMMA, l => matchExact [','] l
  | .WHITESPACE, l => matchWhitespace l
  | .NEWLINE, l => matchExact ['\n'] l

/-- The order of `LexicalAnalyzer.token_specs`, i.e. the order of the
alternatives in the combined regex. -/
def tokenSpecs : List SpecName :=
  [.COMMENT, .FLOAT, .INTEGER, .STRING, .IDENTIFIER,
   .GREATER_EQUAL, .LESS_EQUAL, .EQUAL, .NOT_EQUAL, .ASSIGN,
   .PLUS, .MINUS, .MULTIPLY, .DIVIDE, .LESS_THAN, .GREATER_THAN,
   .LPAREN, .RPAREN, .LBRACE, .RBRACE, .SEMICOLON, .COMMA,
   .WHITESPACE, .NEWLINE]

/-- First listed rule that matches at the head of `l` (Python `re` alternation
is first-match-wins over the alternatives in order). -/
def matchFirst : List SpecName → List Char → Option (SpecName × Nat)
  | [], _ => none
  | n :: ns, l =>
    match ruleOf n l with
    | some len => some (n, len)
    | none => matchFirst ns l

/-- What the combined pattern matches at the head of `l`. -/
def matchAt (l : List Char) : Option (SpecName × Nat) := matchFirst tokenSpecs l

/-- One element of the `finditer` traversal: a match of the combined pattern,
or a single character at which no alternative matched and which `finditer`
passes over without yielding anything. -/
inductive Piece where
  | tok (off : Nat) (name : SpecName) (lex : List Char)
  | skip (off : Nat) (c : Char)
  deriving DecidableEq, Repr

/-- The `finditer` traversal from offset `off`: take the match at the current
position and continue after it, or record the unmatched character and retry
one position further.  `fuel` bounds the recursion; since every rule consumes
at least one character, `fuel = l.length` computes the whole traversal. -/
def scanAux : Nat → List Char → Nat → List Piece
  | 0, _, _ => []
  | _ + 1, [], _ => []
  | fuel + 1, c :: rest, off =>
    match matchAt (c :: rest) with
    | some (name, len) =>
        .tok off name ((c :: rest).take len) :: scanAux fuel ((c :: rest).drop len) (off + len)
    | none => .skip off c :: scanAux fuel rest (off + 1)

/-- All pieces of the `finditer` traversal of `l`. -/
def scanFull (l : List Char) : List Piece := scanAux l.length l 0

/-- The matches `finditer` actually yields, as `(group name, lexeme)` pairs —
`match.lastgroup` and `match.group()` in the Python loop. -/
def matchesOf (l : List Char) : List (SpecName × List Char) :=
  (scanFull l).filterMap fun p =>
    match p with
    | .tok _ n lex => some (n, lex)
    | .skip _ _ => none

/-- `self.keywords`. -/
def keywords : List (List Char) :=
  ["if", "else", "while", "for", "int", "float",
   "return", "void", "main", "print", "class", "public"].map String.toList

/-- `TokenType[token_type]` for the group names, with the `except KeyError`
branch of `analyze` producing `UNKNOWN` (only the NEWLINE name lacks a
`TokenType` member). -/
def tokenTypeOf : SpecName → TokenType
  | .COMMENT => .COMMENT
  | .FLOAT => .FLOAT
  | .INTEGER => .INTEGER
  | .STRING => .STRING
  | .IDENTIFIER => .IDENTIFIER
  | .GREATER_EQUAL => .GREATER_EQUAL
  | .LESS_EQUAL => .LESS_EQUAL
  | .EQUAL => .EQUAL
  | .NOT_EQUAL => .NOT_EQUAL
  | .ASSIGN => .ASSIGN
  | .PLUS => .PLUS
  | .MINUS => .MINUS
  | .MULTIPLY => .MULTIPLY
  | .DIVIDE => .DIVIDE
  | .LESS_THAN => .LESS_THAN
  | .GREATER_THAN => .GREATER_THAN
  | .LPAREN => .LPAREN
  | .RPAREN => .RPAREN
  | .LBRACE => .LBRACE
  | .RBRACE => .RBRACE
  | .SEMICOLON => .SEMICOLON
  | .COMMA => .COMMA
  | .WHITESPACE => .WHITESPACE
  | .NEWLINE => .UNKNOWN

/-- The token `analyze` constructs for a non-skipped match: the keyword check
for IDENTIFIER matches, `TokenType[token_type]` otherwise. -/
def classify (name : SpecName) (v : List Char) (line col : Nat) : Token :=
  if name = SpecName.IDENTIFIER then
    if v ∈ keywords then ⟨TokenType.KEYWORD, v, line, col⟩
    else ⟨TokenType.IDENTIFIER, v, line, col⟩
  else ⟨tokenTypeOf name, v, line, col⟩

/-- The `for match in self.pattern.finditer(...)` loop of `analyze`: skip
WHITESPACE advancing the column, skip NEWLINE bumping the line and resetting
the column, emit a classified token otherwise.  Returns the emitted tokens and
the final `(line, column)` counters. -/
def runMatches : List (SpecName × List Char) → Nat → Nat → List Token × Nat × Nat
  | [], line, col => ([], line, col)
  | (name, v) :: rest, line, col =>
    if name = SpecName.WHITESPACE then
      runMatches rest line (col + v.length)
    else if name = SpecName.NEWLINE then
      runMatches rest (line + 1) 1
    else
      let r := runMatches rest line (col + v.length)
      (classify name v line col :: r.1, r.2)

/-- The mutable state of a `LexicalAnalyzer` instance. -/
structure LexicalAnalyzer where
  source : List Char
  line : Nat
  column : Nat
  tokens : List Token
  deriving DecidableEq, Repr

/-- `LexicalAnalyzer.__init__`. -/
def LexicalAnalyzer.init (s : List Char) : LexicalAnalyzer := ⟨s, 1, 1, []⟩

/-- `LexicalAnalyzer.analyze`: run the loop over the matches, append the EOF
token at the final counters to the retained `self.tokens`, and return the
updated instance together with the returned list. -/
def LexicalAnalyzer.analyze (st : LexicalAnalyzer) : LexicalAnalyzer × List Token :=
  let r := runMatches (matchesOf st.source) st.line st.column
  let all := st.tokens ++ r.1 ++ [⟨TokenType.EOF, [], r.2.1, r.2.2⟩]
  (⟨st.source, r.2.1, r.2.2, all⟩, all)

/-- Tokenizing a string with a freshly constructed instance. -/
def tokenize (s : List Char) : List Token := (LexicalAnalyzer.init s).analyze.2

/-- The characters a piece of the traversal covers. -/
def pieceText : Piece → List Char
  | .tok _ _ lex => lex
  | .skip _ c => [c]

/-- The starting offset of a piece. -/
def pieceStart : Piece → Nat
  | .tok off _ _ => off
  | .skip off _ => off

/-- The number of source characters a piece covers. -/
def pieceLen : Piece → Nat
  | .tok _ _ lex => lex.length
  | .skip _ _ => 1

/-- Strict lexicographic order on the `(line, column)` annotations. -/
def posLt (a b : Token) : Prop :=
  a.line < b.line ∨ (a.line = b.line ∧ a.column < b.column)

/-- The concatenation of the lexemes of everything the combined pattern
matches (emitted tokens as well as skipped whitespace / newline / comment
spans), in order — the reconstruction the specification describes. -/
def matchedText (s : List Char) : List Char :=
  ((matchesOf s).map Prod.snd).flatten

/-- The 63 characters `[a-zA-Z0-9_]` an identifier may continue with. -/
def identContChars : List Char :=
  "abcdefghijklmnopqrstuvwxyzABCDEFGHIJKLMNOPQRSTUVWXYZ0123456789_".toList

/-- Whether a piece records a character `finditer` passed over unmatched. -/
def pieceIsSkip : Piece → Bool
  | .tok _ _ _ => false
  | .skip _ _ => true

/-! ### Every rule of the catalog consumes at least one character -/

theorem matchExact_len {pat l : List Char} {len : Nat} (h : matchExact pat l = some len) :
    len = pat.length := by
  unfold matchExact at h
  split at h
  · exact (Option.some.injEq _ _).mp h.symm |>.symm ▸ rfl
  · exact absurd h (by simp)

theorem matchComment_pos {l : List Char} {len : Nat} (h : matchComment l = some len) :
    1 ≤ len := by
  unfold matchComment at h
  split at h
  · simp only [Option.some.injEq] at h
    omega
  · rcases Option.map_eq_some'.mp h with ⟨k, -, hk⟩
    omega
  · exact absurd h (by simp)

theorem matchFloat_pos {l : List Char} {len : Nat} (h : matchFloat l = some len) :
    1 ≤ len := by
  simp only [matchFloat] at h
  split at h
  · exact absurd h (by simp)
  · split at h
    · split at h
      · exact absurd h (by simp)
      · simp only [Option.some.injEq] at h
        omega
    · exact absurd h (by simp)

theorem matchInteger_pos {l : List Char} {len : Nat} (h : matchInteger l = some len) :
    1 ≤ len := by
  simp only [matchInteger] at h
  split at h
  · exact absurd h (by simp)
  · simp only [Option.some.injEq] at h
    omega

theorem matchStringLit_pos {l : List Char} {len : Nat} (h : matchStringLit l = some len) :
    1 ≤ len := by
  unfold matchStringLit at h
  split at h
  · simp only at h
    split at h
    · simp only [Option.some.injEq] at h
      omega
    · exact absurd h (by simp)
  · exact absurd h (by simp)

theorem matchIdent_pos {l : List Char} {len : Nat} (h : matchIdent l = some len) :
    1 ≤ len := by
  unfold matchIdent at h
  split at h
  · split at h
    · simp only [Option.some.injEq] at h
      omega
    · exact absurd h (by simp)
  · exact absurd h (by simp)

theorem matchWhitespace_pos {l : List Char} {len : Nat} (h : matchWhitespace l = some len) :
    1 ≤ len := by
  simp only [matchWhitespace] at h
  split at h
  · exact absurd h (by simp)
  · simp only [Option.some.injEq] at h
    omega

theorem ruleOf_pos {n : SpecName} {l : List Char} {len : Nat} (h : ruleOf n l = some len) :
    1 ≤ len := by
  cases n <;> simp only [ruleOf] at h
  case COMMENT => exact matchComment_pos h
  case FLOAT => exact matchFloat_pos h
  case INTEGER => exact matchInteger_pos h
  case STRING => exact matchStringLit_pos h
  case IDENTIFIER => exact matchIdent_pos h
  case WHITESPACE => exact matchWhitespace_pos h
  all_goals (rw [matchExact_len h]; simp)

theorem matchFirst_rule {ns : List SpecName} {l : List Char} {n : SpecName} {len : Nat}
    (h : matchFirst ns l = some (n, len)) : ruleOf n l = some len := by
  induction ns with
  | nil => exact absurd h (by simp [matchFirst])
  | cons m ms ih =>
    unfold matchFirst at h
    split at h
    · simp only [Option.some.injEq, Prod.mk.injEq] at h
      obtain ⟨rfl, rfl⟩ := h
      assumption
    · exact ih h

theorem matchAt_pos {l : List Char} {n : SpecName} {len : Nat}
    (h : matchAt l = some (n, len)) : 1 ≤ len :=
  ruleOf_pos (matchFirst_rule h)

/-! ### The `finditer` traversal: reconstruction, offsets, lexeme shapes -/

theorem scanAux_join : ∀ (fuel : Nat) (l : List Char) (off : Nat), l.length ≤ fuel →
    ((scanAux fuel l off).map pieceText).flatten = l := by
  intro fuel
  induction fuel with
  | zero =>
    intro l off h
    have hl : l = [] := List.eq_nil_of_length_eq_zero (Nat.le_zero.mp h)
    subst hl
    simp [scanAux]
  | succ fuel ih =>
    intro l off h
    cases l with
    | nil => simp [scanAux]
    | cons c rest =>
      simp only [List.length_cons] at h
      cases hm : matchAt (c :: rest) with
      | none =>
        simp only [scanAux, hm, List.map_cons, List.flatten_cons, pieceText]
        rw [ih rest (off + 1) (by omega)]
        simp
      | some nl =>
        obtain ⟨name, len⟩ := nl
        have hpos : 1 ≤ len := matchAt_pos hm
        simp only [scanAux, hm, List.map_cons, List.flatten_cons, pieceText]
        rw [ih ((c :: rest).drop len) (off + len)
          (by simp only [List.length_drop, List.length_cons]; omega)]
        exact List.take_append_drop len (c :: rest)

theorem scanAux_start_le : ∀ (fuel : Nat) (l : List Char) (off : Nat) (p : Piece),
    p ∈ scanAux fuel l off → off ≤ pieceStart p := by
  intro fuel
  induction fuel with
  | zero =>
    intro l off p hp
    simp [scanAux] at hp
  | succ fuel ih =>
    intro l off p hp
    cases l with
    | nil => simp [scanAux] at hp
    | cons c rest =>
      cases hm : matchAt (c :: rest) with
      | none =>
        simp only [scanAux, hm, List.mem_cons] at hp
        rcases hp with rfl | hp
        · simp [pieceStart]
        · have := ih rest (off + 1) p hp
          omega
      | some nl =>
        obtain ⟨name, len⟩ := nl
        simp only [scanAux, hm, List.mem_cons] at hp
        rcases hp with rfl | hp
        · simp [pieceStart]
        · have := ih ((c :: rest).drop len) (off + len) p hp
          have hpos : 1 ≤ len := matchAt_pos hm
          omega

theorem scanAux_len_pos : ∀ (fuel : Nat) (l : List Char) (off : Nat) (p : Piece),
    p ∈ scanAux fuel l off → 1 ≤ pieceLen p := by
  intro fuel
  induction fuel with
  | zero =>
    intro l off p hp
    simp [scanAux] at hp
  | succ fuel ih =>
    intro l off p hp
    cases l with
    | nil => simp [scanAux] at hp
    | cons c rest =>
      cases hm : matchAt (c :: rest) with
      | none =>
        simp only [scanAux, hm, List.mem_cons] at hp
        rcases hp with rfl | hp
        · simp [pieceLen]
        · exact ih rest (off + 1) p hp
      | some nl =>
        obtain ⟨name, len⟩ := nl
        simp only [scanAux, hm, List.mem_cons] at hp
        rcases hp with rfl | hp
        · have hpos : 1 ≤ len := matchAt_pos hm
          simp only [pieceLen, List.length_take, List.length_cons]
          omega
        · exact ih ((c :: rest).drop len) (off + len) p hp

theorem scanAux_pairwise : ∀ (fuel : Nat) (l : List Char) (off : Nat),
    List.Pairwise (fun a b => pieceStart a + pieceLen a ≤ pieceStart b) (scanAux fuel l off) := by
  intro fuel
  induction fuel with
  | zero =>
    intro l off
    simp [scanAux]
  | succ fuel ih =>
    intro l off
    cases l with
    | nil => simp [scanAux]
    | cons c rest =>
      cases hm : matchAt (c :: rest) with
      | none =>
        simp only [scanAux, hm]
        refine List.pairwise_cons.mpr ⟨?_, ih rest (off + 1)⟩
        intro p hp
        have h1 := scanAux_start_le fuel rest (off + 1) p hp
        have h2 : pieceStart (Piece.skip off c) + pieceLen (Piece.skip off c) = off + 1 := rfl
        rw [h2]
        exact h1
      | some nl =>
        obtain ⟨name, len⟩ := nl
        simp only [scanAux, hm]
        refine List.pairwise_cons.mpr ⟨?_, ih ((c :: rest).drop len) (off + len)⟩
        intro p hp
        have h1 := scanAux_start_le fuel ((c :: rest).drop len) (off + len) p hp
        have h2 : pieceStart (Piece.tok off name ((c :: rest).take len)) +
            pieceLen (Piece.tok off name ((c :: rest).take len)) =
            off + ((c :: rest).take len).length := rfl
        have h3 : ((c :: rest).take len).length ≤ len := by
          rw [List.length_take]
          exact Nat.min_le_left _ _
        rw [h2]
        omega

/-! ### The analyze loop: positions, token types, counter threading -/

theorem classify_line (name : SpecName) (v : List Char) (line col : Nat) :
    (classify name v line col).line = line := by
  by_cases h : name = SpecName.IDENTIFIER <;> by_cases h2 : v ∈ keywords <;>
    simp [classify, h, h2]

theorem classify_column (name : SpecName) (v : List Char) (line col : Nat) :
    (classify name v line col).column = col := by
  by_cases h : name = SpecName.IDENTIFIER <;> by_cases h2 : v ∈ keywords <;>
    simp [classify, h, h2]

theorem classify_value (name : SpecName) (v : List Char) (line col : Nat) :
    (classify name v line col).value = v := by
  by_cases h : name = SpecName.IDENTIFIER <;> by_cases h2 : v ∈ keywords <;>
    simp [classify, h, h2]

theorem classify_type_indep (name : SpecName) (v : List Char) (line col line' col' : Nat) :
    (classify name v line col).type = (classify name v line' col').type := by
  by_cases h : name = SpecName.IDENTIFIER <;> by_cases h2 : v ∈ keywords <;>
    simp [classify, h, h2]

theorem tokenTypeOf_ne_unknown {name : SpecName} (h : name ≠ SpecName.NEWLINE) :
    tokenTypeOf name ≠ TokenType.UNKNOWN := by
  cases name <;> simp [tokenTypeOf]
  exact h rfl

theorem tokenTypeOf_ne_whitespace {name : SpecName} (h : name ≠ SpecName.WHITESPACE) :
    tokenTypeOf name ≠ TokenType.WHITESPACE := by
  cases name <;> simp [tokenTypeOf]
  exact h rfl

theorem classify_not_unknown {name : SpecName} {v : List Char} {line col : Nat}
    (h : name ≠ SpecName.NEWLINE) :
    (classify name v line col).type ≠ TokenType.UNKNOWN := by
  by_cases hid : name = SpecName.IDENTIFIER <;> by_cases h2 : v ∈ keywords <;>
    simp [classify, hid, h2] <;> exact tokenTypeOf_ne_unknown h

theorem classify_not_whitespace {name : SpecName} {v : List Char} {line col : Nat}
    (h : name ≠ SpecName.WHITESPACE) :
    (classify name v line col).type ≠ TokenType.WHITESPACE := by
  by_cases hid : name = SpecName.IDENTIFIER <;> by_cases h2 : v ∈ keywords <;>
    simp [classify, hid, h2] <;> exact tokenTypeOf_ne_whitespace h

theorem runMatches_no_unknown : ∀ (ms : List (SpecName × List Char)) (line col : Nat)
    (t : Token), t ∈ (runMatches ms line col).1 → t.type ≠ TokenType.UNKNOWN := by
  intro ms
  induction ms with
  | nil =>
    intro line col t ht
    simp [runMatches] at ht
  | cons m rest ih =>
    obtain ⟨name, v⟩ := m
    intro line col t ht
    by_cases hws : name = SpecName.WHITESPACE
    · simp only [runMatches, if_pos hws] at ht
      exact ih _ _ t ht
    · by_cases hnl : name = SpecName.NEWLINE
      · simp only [runMatches, if_neg hws, if_pos hnl] at ht
        exact ih _ _ t ht
      · simp only [runMatches, if_neg hws, if_neg hnl, List.mem_cons] at ht
        rcases ht with rfl | ht
        · exact classify_not_unknown hnl
        · exact ih _ _ t ht

theorem runMatches_no_whitespace : ∀ (ms : List (SpecName × List Char)) (line col : Nat)
    (t : Token), t ∈ (runMatches ms line col).1 → t.type ≠ TokenType.WHITESPACE := by
  intro ms
  induction ms with
  | nil =>
    intro line col t ht
    simp [runMatches] at ht
  | cons m rest ih =>
    obtain ⟨name, v⟩ := m
    intro line col t ht
    by_cases hws : name = SpecName.WHITESPACE
    · simp only [runMatches, if_pos hws] at ht
      exact ih _ _ t ht
    · by_cases hnl : name = SpecName.NEWLINE
      · simp only [runMatches, if_neg hws, if_pos hnl] at ht
        exact ih _ _ t ht
      · simp only [runMatches, if_neg hws, if_neg hnl, List.mem_cons] at ht
        rcases ht with rfl | ht
        · exact classify_not_whitespace hws
        · exact ih _ _ t ht

theorem runMatches_token_lb : ∀ (ms : List (SpecName × List Char)) (line col : Nat)
    (t : Token), t ∈ (runMatches ms line col).1 →
    line < t.line ∨ (line = t.line ∧ col ≤ t.column) := by
  intro ms
  induction ms with
  | nil =>
    intro line col t ht
    simp [runMatches] at ht
  | cons m rest ih =>
    obtain ⟨name, v⟩ := m
    intro line col t ht
    by_cases hws : name = SpecName.WHITESPACE
    · simp only [runMatches, if_pos hws] at ht
      have := ih line (col + v.length) t ht
      omega
    · by_cases hnl : name = SpecName.NEWLINE
      · simp only [runMatches, if_neg hws, if_pos hnl] at ht
        have := ih (line + 1) 1 t ht
        omega
      · simp only [runMatches, if_neg hws, if_neg hnl, List.mem_cons] at ht
        rcases ht with rfl | ht
        · rw [classify_line, classify_column]
          omega
        · have := ih line (col + v.length) t ht
          omega

theorem runMatches_counters : ∀ (ms : List (SpecName × List Char)) (line col : Nat),
    line < (runMatches ms line col).2.1 ∨
      (line = (runMatches ms line col).2.1 ∧ col ≤ (runMatches ms line col).2.2) := by
  intro ms
  induction ms with
  | nil =>
    intro line col
    simp [runMatches]
  | cons m rest ih =>
    obtain ⟨name, v⟩ := m
    intro line col
    by_cases hws : name = SpecName.WHITESPACE
    · simp only [runMatches, if_pos hws]
      have := ih line (col + v.length)
      omega
    · by_cases hnl : name = SpecName.NEWLINE
      · simp only [runMatches, if_neg hws, if_pos hnl]
        have := ih (line + 1) 1
        omega
      · simp only [runMatches, if_neg hws, if_neg hnl]
        have := ih line (col + v.length)
        omega

theorem runMatches_lt_final : ∀ (ms : List (SpecName × List Char)) (line col : Nat),
    (∀ p ∈ ms, 1 ≤ (p.2 : List Char).length) → ∀ t ∈ (runMatches ms line col).1,
    t.line < (runMatches ms line col).2.1 ∨
      (t.line = (runMatches ms line col).2.1 ∧ t.column < (runMatches ms line col).2.2) := by
  intro ms
  induction ms with
  | nil =>
    intro line col hv t ht
    simp [runMatches] at ht
  | cons m rest ih =>
    obtain ⟨name, v⟩ := m
    intro line col hv t ht
    have hv1 : 1 ≤ v.length := hv (name, v) (by simp)
    have hvr : ∀ p ∈ rest, 1 ≤ (p.2 : List Char).length := fun p hp => hv p (by simp [hp])
    by_cases hws : name = SpecName.WHITESPACE
    · simp only [runMatches, if_pos hws] at ht ⊢
      exact ih line (col + v.length) hvr t ht
    · by_cases hnl : name = SpecName.NEWLINE
      · simp only [runMatches, if_neg hws, if_pos hnl] at ht ⊢
        exact ih (line + 1) 1 hvr t ht
      · simp only [runMatches, if_neg hws, if_neg hnl, List.mem_cons] at ht ⊢
        rcases ht with rfl | ht
        · rw [classify_line, classify_column]
          have := runMatches_counters rest line (col + v.length)
          omega
        · exact ih line (col + v.length) hvr t ht

theorem runMatches_pairwise : ∀ (ms : List (SpecName × List Char)) (line col : Nat),
    (∀ p ∈ ms, 1 ≤ (p.2 : List Char).length) →
    List.Pairwise posLt (runMatches ms line col).1 := by
  intro ms
  induction ms with
  | nil =>
    intro line col hv
    simp [runMatches]
  | cons m rest ih =>
    obtain ⟨name, v⟩ := m
    intro line col hv
    have hv1 : 1 ≤ v.length := hv (name, v) (by simp)
    have hvr : ∀ p ∈ rest, 1 ≤ (p.2 : List Char).length := fun p hp => hv p (by simp [hp])
    by_cases hws : name = SpecName.WHITESPACE
    · simp only [runMatches, if_pos hws]
      exact ih line (col + v.length) hvr
    · by_cases hnl : name = SpecName.NEWLINE
      · simp only [runMatches, if_neg hws, if_pos hnl]
        exact ih (line + 1) 1 hvr
      · simp only [runMatches, if_neg hws, if_neg hnl]
        refine List.pairwise_cons.mpr ⟨?_, ih line (col + v.length) hvr⟩
        intro t ht
        have := runMatches_token_lb rest line (col + v.length) t ht
        unfold posLt
        rw [classify_line, classify_column]
        omega

theorem runMatches_shape : ∀ (ms : List (SpecName × List Char)) (line col line' col' : Nat),
    ((runMatches ms line col).1.map fun t => (t.type, t.value)) =
      ((runMatches ms line' col').1.map fun t => (t.type, t.value)) := by
  intro ms
  induction ms with
  | nil =>
    intro line col line' col'
    simp [runMatches]
  | cons m rest ih =>
    obtain ⟨name, v⟩ := m
    intro line col line' col'
    by_cases hws : name = SpecName.WHITESPACE
    · simp only [runMatches, if_pos hws]
      exact ih _ _ _ _
    · by_cases hnl : name = SpecName.NEWLINE
      · simp only [runMatches, if_neg hws, if_pos hnl]
        exact ih _ _ _ _
      · simp only [runMatches, if_neg hws, if_neg hnl, List.map_cons]
        rw [classify_value, classify_value, classify_type_indep name v line col line' col']
        exact congrArg _ (ih _ _ _ _)

theorem matchesOf_len_pos : ∀ (s : List Char) (p : SpecName × List Char),
    p ∈ matchesOf s → 1 ≤ (p.2 : List Char).length := by
  intro s p hp
  simp only [matchesOf, List.mem_filterMap] at hp
  obtain ⟨piece, hmem, heq⟩ := hp
  cases piece with
  | tok off n lex =>
    simp only [Option.some.injEq] at heq
    have := scanAux_len_pos s.length s 0 _ hmem
    rw [← heq]
    exact this
  | skip off c => simp at heq

/-! ### Unfolding `tokenize` into the loop and the EOF token -/

theorem tokenize_eq (s : List Char) :
    tokenize s = (runMatches (matchesOf s) 1 1).1 ++
      [⟨TokenType.EOF, [], (runMatches (matchesOf s) 1 1).2.1,
        (runMatches (matchesOf s) 1 1).2.2⟩] := rfl

theorem filterMap_all_tok : ∀ ps : List Piece, (∀ p ∈ ps, pieceIsSkip p = false) →
    ((ps.filterMap fun p =>
      match p with
      | .tok _ n lex => some (n, lex)
      | .skip _ _ => none).map Prod.snd) = ps.map pieceText := by
  intro ps
  induction ps with
  | nil => intro _; simp
  | cons p rest ih =>
    intro h
    cases p with
    | tok off n lex =>
      simp only [List.filterMap_cons, List.map_cons, pieceText]
      exact congrArg _ (ih fun q hq => h q (by simp [hq]))
    | skip off c =>
      have := h (Piece.skip off c) (by simp)
      simp [pieceIsSkip] at this

/-! ### Claims -/

/-- C1, counterexample: the output of tokenizing `"int x ; // trailing\n"`
contains a token of kind `COMMENT`, so a Comment kind does reach the output,
contrary to the claim that comments are never materialized. -/
theorem c1_counterexample :
    TokenType.COMMENT ∈ (tokenize ("int x ; // trailing\n".toList)).map Token.type := by
  decide

/-- C1 (amended): whitespace and newline matches are never materialized as
tokens — no `WHITESPACE`-kind token ever reaches the output — but comments
are: tokenizing `"int x ; // trailing\n"` yields the tokens for `int`, `x`,
`;`, then a `COMMENT` token for `// trailing`, then `EOF`. -/
theorem c1_amended :
    (∀ (s : List Char) (t : Token), t ∈ tokenize s → t.type ≠ TokenType.WHITESPACE) ∧
    tokenize ("int x ; // trailing\n".toList) =
      [⟨TokenType.KEYWORD, "int".toList, 1, 1⟩,
       ⟨TokenType.IDENTIFIER, "x".toList, 1, 5⟩,
       ⟨TokenType.SEMICOLON, ";".toList, 1, 7⟩,
       ⟨TokenType.COMMENT, "// trailing".toList, 1, 9⟩,
       ⟨TokenType.EOF, [], 2, 1⟩] := by
  constructor
  · intro s t ht
    rw [tokenize_eq] at ht
    rcases List.mem_append.mp ht with h | h
    · exact runMatches_no_whitespace _ _ _ _ h
    · simp only [List.mem_singleton] at h
      subst h
      simp
  · decide

/-- C1 witness: the whitespace-suppression half of `c1_amended` applied to the
input `"@"` and its `EOF` token. -/
theorem c1_amended_witness :
    (⟨TokenType.EOF, [], 1, 1⟩ : Token).type ≠ TokenType.WHITESPACE :=
  c1_amended.1 ['@'] ⟨TokenType.EOF, [], 1, 1⟩ (by decide)

/-- C2, counterexample: at the unmatched character `@` the scanner emits no
token at all — the whole output is the single `EOF` token, still at column 1 —
rather than one `Unrecognized` token with lexeme `"@"` followed by `EOF` at
column 2. -/
theorem c2_counterexample : tokenize ['@'] = [⟨TokenType.EOF, [], 1, 1⟩] := by
  decide

/-- C2 (amended): an input position at which no lexical rule matches produces
no token: `finditer` passes over the character, the traversal continues one
position further without touching the line/column counters, and an
`UNKNOWN`-kind token is never present in any output; the scan still always
returns a well-formed sequence. -/
theorem c2_amended :
    (∀ (s : List Char) (t : Token), t ∈ tokenize s → t.type ≠ TokenType.UNKNOWN) ∧
    (∀ (fuel : Nat) (c : Char) (rest : List Char) (off : Nat),
      matchAt (c :: rest) = none →
      scanAux (fuel + 1) (c :: rest) off = Piece.skip off c :: scanAux fuel rest (off + 1)) := by
  constructor
  · intro s t ht
    rw [tokenize_eq] at ht
    rcases List.mem_append.mp ht with h | h
    · exact runMatches_no_unknown _ _ _ _ h
    · simp only [List.mem_singleton] at h
      subst h
      simp
  · intro fuel c rest off h
    simp [scanAux, h]

/-- C2 witness: `c2_amended` applied to the input `"@"`, whose single
character matches no rule. -/
theorem c2_amended_witness :
    (⟨TokenType.EOF, [], 1, 1⟩ : Token).type ≠ TokenType.UNKNOWN ∧
    scanAux 1 ['@'] 0 = Piece.skip 0 '@' :: scanAux 0 [] 1 :=
  ⟨c2_amended.1 ['@'] ⟨TokenType.EOF, [], 1, 1⟩ (by decide),
   c2_amended.2 0 '@' [] 0 (by decide)⟩

/-- C3, counterexample: on input `"@"` the concatenation of all matched
lexemes (emitted tokens plus skipped whitespace/newline/comment spans) is
empty — the unmatched `@` was dropped — so it does not reproduce the input. -/
theorem c3_counterexample : matchedText ['@'] ≠ ['@'] := by decide

/-- C3 (amended): concatenating, in order, every piece of the `finditer`
traversal — each token lexeme, each skipped ignorable span, and additionally
each single character at which no rule matched — reproduces the input exactly;
when the traversal skips no unmatched character, the token lexemes together
with the ignorable spans alone already reproduce the input. -/
theorem c3_amended :
    (∀ s : List Char, ((scanFull s).map pieceText).flatten = s) ∧
    (∀ s : List Char, (∀ p ∈ scanFull s, pieceIsSkip p = false) → matchedText s = s) := by
  constructor
  · intro s
    exact scanAux_join s.length s 0 (le_refl _)
  · intro s h
    unfold matchedText matchesOf
    rw [filterMap_all_tok (scanFull s) h]
    exact scanAux_join s.length s 0 (le_refl _)

/-- C3 witness: the skip-free half of `c3_amended` applied to `"ab"`, whose
traversal contains no skipped character. -/
theorem c3_amended_witness : matchedText ("ab".toList) = "ab".toList :=
  c3_amended.2 ("ab".toList) (by decide)

/-- C4, counterexample: an input ending in an unterminated string literal
(`"abc`) yields no `STRING` token at all — the opening quote is dropped and
the content lexes as an identifier — and an input ending in an unterminated
block comment (`/* x`) yields no `COMMENT` token — the delimiter lexes as
`DIVIDE` then `MULTIPLY`.  Neither produces a single token of the expected
kind running to end-of-input. -/
theorem c4_counterexample :
    tokenize ("\"abc".toList) =
      [⟨TokenType.IDENTIFIER, "abc".toList, 1, 1⟩, ⟨TokenType.EOF, [], 1, 4⟩] ∧
    tokenize ("/* x".toList) =
      [⟨TokenType.DIVIDE, ['/'], 1, 1⟩, ⟨TokenType.MULTIPLY, ['*'], 1, 2⟩,
       ⟨TokenType.IDENTIFIER, ['x'], 1, 4⟩, ⟨TokenType.EOF, [], 1, 5⟩] := by
  constructor <;> decide

/-- C4 (amended): the string rule and the block-comment rule require their
closing delimiter, so on unterminated input they fail instead of matching to
end-of-input: at an opening quote never followed by a closing quote no rule
matches at all (the quote is silently skipped), and at an unmatched `/*` the
first rule to match is `DIVIDE` on the single `/`.  Consequently `"abc` lexes
as the identifier `abc` and `/* x` lexes as `/`, `*`, `x`. -/
theorem c4_amended :
    (∀ rest : List Char, ('"' : Char) ∉ rest → matchAt ('"' :: rest) = none) ∧
    (∀ rest : List Char, findClose rest = none →
      matchAt ('/' :: '*' :: rest) = some (SpecName.DIVIDE, 1)) ∧
    tokenize ("\"abc".toList) =
      [⟨TokenType.IDENTIFIER, "abc".toList, 1, 1⟩, ⟨TokenType.EOF, [], 1, 4⟩] ∧
    tokenize ("/* x".toList) =
      [⟨TokenType.DIVIDE, ['/'], 1, 1⟩, ⟨TokenType.MULTIPLY, ['*'], 1, 2⟩,
       ⟨TokenType.IDENTIFIER, ['x'], 1, 4⟩, ⟨TokenType.EOF, [], 1, 5⟩] := by
  refine ⟨?_, ?_, by decide, by decide⟩
  · intro rest h
    have htw : rest.takeWhile (fun c => !(c == '"')) = rest := by
      rw [List.takeWhile_eq_self_iff]
      intro a ha
      simp only [Bool.not_eq_true']
      exact beq_false_of_ne (fun hc => h (hc ▸ ha))
    simp [matchAt, tokenSpecs, matchFirst, ruleOf, matchComment, matchFloat, matchInteger,
          matchStringLit, matchIdent, matchExact, hasPrefixL, matchWhitespace, isDigitC,
          isIdentStart, isLetterC, htw]
  · intro rest h
    simp [matchAt, tokenSpecs, matchFirst, ruleOf, matchComment, matchFloat, matchInteger,
          matchStringLit, matchIdent, matchExact, hasPrefixL, matchWhitespace, isDigitC,
          isIdentStart, isLetterC, h]

/-- C4 witness: the two rule-failure halves of `c4_amended` applied to the
tails of `"abc` and `/* x`. -/
theorem c4_amended_witness :
    matchAt ('"' :: "abc".toList) = none ∧
    matchAt ('/' :: '*' :: " x".toList) = some (SpecName.DIVIDE, 1) :=
  ⟨c4_amended.1 ("abc".toList) (by decide),
   c4_amended.2.1 (" x".toList) (by decide)⟩

/-- C5, counterexample: the block comment `/*\n*/` contains a newline, yet
after it the scanner stays on line 1 and has advanced the column by the whole
match length: `x` is reported at line 1, column 6 instead of line 2.  The line
counter was not incremented by the number of newlines in the match. -/
theorem c5_counterexample :
    tokenize ("/*\n*/x".toList) =
      [⟨TokenType.COMMENT, "/*\n*/".toList, 1, 1⟩,
       ⟨TokenType.IDENTIFIER, ['x'], 1, 6⟩,
       ⟨TokenType.EOF, [], 1, 7⟩] := by
  decide

/-- C5 (amended): only a bare-newline match updates the line counter
(`line + 1`, column reset to 1); every other match — including a multi-line
block comment — leaves the line unchanged and adds its full length to the
column (whitespace likewise only widens the column).  The single-newline
example behaves as claimed: `"x\n=1;"` places `=` at line 2, column 1 and `1`
at line 2, column 2. -/
theorem c5_amended :
    (∀ (v : List Char) (ms : List (SpecName × List Char)) (l c : Nat),
      runMatches ((SpecName.NEWLINE, v) :: ms) l c = runMatches ms (l + 1) 1) ∧
    (∀ (name : SpecName) (v : List Char) (ms : List (SpecName × List Char)) (l c : Nat),
      name ≠ SpecName.WHITESPACE → name ≠ SpecName.NEWLINE →
      runMatches ((name, v) :: ms) l c =
        (classify name v l c :: (runMatches ms l (c + v.length)).1,
         (runMatches ms l (c + v.length)).2)) ∧
    (∀ (v : List Char) (ms : List (SpecName × List Char)) (l c : Nat),
      runMatches ((SpecName.WHITESPACE, v) :: ms) l c = runMatches ms l (c + v.length)) ∧
    tokenize ("x\n=1;".toList) =
      [⟨TokenType.IDENTIFIER, ['x'], 1, 1⟩, ⟨TokenType.ASSIGN, ['='], 2, 1⟩,
       ⟨TokenType.INTEGER, ['1'], 2, 2⟩, ⟨TokenType.SEMICOLON, [';'], 2, 3⟩,
       ⟨TokenType.EOF, [], 2, 4⟩] := by
  refine ⟨?_, ?_, ?_, by decide⟩
  · intro v ms l c
    simp [runMatches]
  · intro name v ms l c h1 h2
    simp [runMatches, h1, h2]
  · intro v ms l c
    simp [runMatches]

/-- C5 witness: `c5_amended` applied to a newline match and to the multi-line
block-comment match `/*\n*/`, discharging the kind hypotheses. -/
theorem c5_amended_witness :
    runMatches [(SpecName.NEWLINE, ['\n'])] 5 7 = runMatches [] 6 1 ∧
    runMatches [(SpecName.COMMENT, "/*\n*/".toList)] 1 1 =
      (classify SpecName.COMMENT ("/*\n*/".toList) 1 1 ::
        (runMatches [] 1 (1 + ("/*\n*/".toList).length)).1,
       (runMatches [] 1 (1 + ("/*\n*/".toList).length)).2) :=
  ⟨c5_amended.1 ['\n'] [] 5 7,
   c5_amended.2.1 SpecName.COMMENT ("/*\n*/".toList) [] 1 1 (by decide) (by decide)⟩

/-- C7, counterexample: `"10."` lexes as the integer `10` followed directly by
`EOF` — the trailing `.` matches no rule and produces no token whatsoever,
neither an `Unrecognized` token nor a delimiter token. -/
theorem c7_counterexample :
    tokenize ("10.".toList) =
      [⟨TokenType.INTEGER, "10".toList, 1, 1⟩, ⟨TokenType.EOF, [], 1, 3⟩] := by
  decide

/-- C7 (amended): `"10.5"` yields exactly one `FLOAT` token `10.5` (the FLOAT
rule wins over INTEGER, no split); `"10."` yields the `INTEGER` token `10`
after which the bare `.` is silently skipped, producing no token at all. -/
theorem c7_amended :
    tokenize ("10.5".toList) =
      [⟨TokenType.FLOAT, "10.5".toList, 1, 1⟩, ⟨TokenType.EOF, [], 1, 5⟩] ∧
    tokenize ("10.".toList) =
      [⟨TokenType.INTEGER, "10".toList, 1, 1⟩, ⟨TokenType.EOF, [], 1, 3⟩] := by
  constructor <;> decide

/-- C8: operator maximal munch.  At any position whose next two characters are
`>=`, `<=`, `==` or `!=`, the combined pattern matches the two-character
operator, never the one-character prefix; concretely `">="` lexes as one
`GREATER_EQUAL` token while `"> ="` lexes as `GREATER_THAN` then `ASSIGN`. -/
theorem c8_maximal_munch :
    (∀ rest : List Char, matchAt ('>' :: '=' :: rest) = some (SpecName.GREATER_EQUAL, 2)) ∧
    (∀ rest : List Char, matchAt ('<' :: '=' :: rest) = some (SpecName.LESS_EQUAL, 2)) ∧
    (∀ rest : List Char, matchAt ('=' :: '=' :: rest) = some (SpecName.EQUAL, 2)) ∧
    (∀ rest : List Char, matchAt ('!' :: '=' :: rest) = some (SpecName.NOT_EQUAL, 2)) ∧
    tokenize (">=".toList) =
      [⟨TokenType.GREATER_EQUAL, ">=".toList, 1, 1⟩, ⟨TokenType.EOF, [], 1, 3⟩] ∧
    tokenize ("> =".toList) =
      [⟨TokenType.GREATER_THAN, ['>'], 1, 1⟩, ⟨TokenType.ASSIGN, ['='], 1, 3⟩,
       ⟨TokenType.EOF, [], 1, 4⟩] := by
  refine ⟨?_, ?_, ?_, ?_, by decide, by decide⟩ <;>
    (intro rest;
     simp [matchAt, tokenSpecs, matchFirst, ruleOf, matchComment, matchFloat, matchInteger,
           matchStringLit, matchIdent, matchExact, hasPrefixL, matchWhitespace, isDigitC,
           isIdentStart, isLetterC])

set_option maxRecDepth 100000

/-- C6: keyword precedence after greedy identifier matching.  Tokenizing any
member of the keyword set alone yields exactly one `KEYWORD` token for the
whole word; appending any identifier character (`[a-zA-Z0-9_]`) to a keyword
yields exactly one `IDENTIFIER` token whose lexeme is the full extended
string — never a keyword followed by a remainder. -/
theorem c6_keyword_precedence :
    (∀ k ∈ keywords, tokenize k =
      [⟨TokenType.KEYWORD, k, 1, 1⟩, ⟨TokenType.EOF, [], 1, k.length + 1⟩]) ∧
    (∀ k ∈ keywords, ∀ c ∈ identContChars, tokenize (k ++ [c]) =
      [⟨TokenType.IDENTIFIER, k ++ [c], 1, 1⟩, ⟨TokenType.EOF, [], 1, k.length + 2⟩]) := by
  constructor
  · decide
  · decide

/-- C6 witness: `c6_keyword_precedence` applied to the keyword `if` and to
`if` extended with `x` (the `ifx` example). -/
theorem c6_keyword_precedence_witness :
    tokenize ("if".toList) =
      [⟨TokenType.KEYWORD, "if".toList, 1, 1⟩,
       ⟨TokenType.EOF, [], 1, ("if".toList).length + 1⟩] ∧
    tokenize ("if".toList ++ ['x']) =
      [⟨TokenType.IDENTIFIER, "if".toList ++ ['x'], 1, 1⟩,
       ⟨TokenType.EOF, [], 1, ("if".toList).length + 2⟩] :=
  ⟨c6_keyword_precedence.1 ("if".toList) (by decide),
   c6_keyword_precedence.2 ("if".toList) (by decide) 'x' (by decide)⟩

/-- C9: position monotonicity.  For every input the emitted tokens (the `EOF`
token included) carry strictly lexicographically increasing `(line, column)`
annotations — in particular non-decreasing order, as claimed; and the pieces
of the `finditer` traversal, which cover every emitted token's lexeme, occupy
pairwise non-overlapping character ranges at strictly increasing source
offsets. -/
theorem c9_position_monotonicity (s : List Char) :
    List.Pairwise posLt (tokenize s) ∧
    List.Pairwise (fun a b => pieceStart a + pieceLen a ≤ pieceStart b) (scanFull s) ∧
    List.Pairwise (fun a b => pieceStart a < pieceStart b) (scanFull s) := by
  refine ⟨?_, scanAux_pairwise s.length s 0, ?_⟩
  · rw [tokenize_eq]
    have hv := matchesOf_len_pos s
    rw [List.pairwise_append]
    refine ⟨runMatches_pairwise _ 1 1 hv, by simp, ?_⟩
    intro t ht e he
    simp only [List.mem_singleton] at he
    subst he
    exact runMatches_lt_final (matchesOf s) 1 1 hv t ht
  · refine (scanAux_pairwise s.length s 0).imp_of_mem ?_
    intro a b ha _ hab
    have := scanAux_len_pos s.length s 0 a ha
    omega

/-- C10: `analyze` is not idempotent on an instance.  A second call on the
instance returned by the first call returns the first run's full list (its
`EOF` token included) followed by a second pass over the same matches whose
tokens repeat every kind and lexeme of the first pass but whose positions
start from the line/column counters the first run left behind, and a second
`EOF` token; the retained `tokens` field is that same appended list. -/
theorem c10_not_idempotent (s : List Char) :
    ((LexicalAnalyzer.init s).analyze.1).analyze.2 =
      (LexicalAnalyzer.init s).analyze.2 ++
        ((runMatches (matchesOf s) (LexicalAnalyzer.init s).analyze.1.line
            (LexicalAnalyzer.init s).analyze.1.column).1 ++
         [⟨TokenType.EOF, [],
            (runMatches (matchesOf s) (LexicalAnalyzer.init s).analyze.1.line
              (LexicalAnalyzer.init s).analyze.1.column).2.1,
            (runMatches (matchesOf s) (LexicalAnalyzer.init s).analyze.1.line
              (LexicalAnalyzer.init s).analyze.1.column).2.2⟩]) ∧
    ((runMatches (matchesOf s) (LexicalAnalyzer.init s).analyze.1.line
        (LexicalAnalyzer.init s).analyze.1.column).1.map fun t => (t.type, t.value)) =
      ((runMatches (matchesOf s) 1 1).1.map fun t => (t.type, t.value)) ∧
    ((LexicalAnalyzer.init s).analyze.1).analyze.1.tokens =
      ((LexicalAnalyzer.init s).analyze.1).analyze.2 := by
  refine ⟨?_, runMatches_shape _ _ _ _ _, rfl⟩
  simp [LexicalAnalyzer.analyze, LexicalAnalyzer.init, List.append_assoc]
